import Mathlib

/-!
Verification of the inline-completion post-processing core of the `cody`
repository.  The functions below are shallow embeddings of the TypeScript
source in `vscode/src/completions/text-processing.ts`; strings are modelled
as `List Char`.  Components whose implementation files are not part of the
source tree (completion cache, orchestrator, multi-line truncation engine)
are modelled from the specification and marked as such in their doc
comments.
-/

set_option maxRecDepth 4000

namespace Cody

/-- The set of character codes treated as whitespace by JavaScript
(`String.prototype.trim`, regex `\s`): tab, LF, VT, FF, CR, space, NBSP,
Ogham space mark, line/paragraph separators, narrow NBSP, medium
mathematical space, ideographic space, BOM. -/
def jsWhitespaceCodes : List Nat :=
  [0x9, 0xA, 0xB, 0xC, 0xD, 0x20, 0xA0, 0x1680, 0x2028, 0x2029, 0x202F, 0x205F, 0x3000, 0xFEFF]

/-- Whether a character is JavaScript whitespace (the codes above plus the
general-punctuation space range U+2000–U+200A). -/
def jsWhitespace (c : Char) : Bool :=
  decide (c.toNat ∈ jsWhitespaceCodes) || decide (0x2000 ≤ c.toNat ∧ c.toNat ≤ 0x200A)

/-- JS `s.trim()`: remove whitespace from both ends. -/
def jsTrim (s : List Char) : List Char :=
  (s.dropWhile jsWhitespace).rdropWhile jsWhitespace

/-- JS `s.trimEnd()`: remove trailing whitespace only. -/
def jsTrimEnd (s : List Char) : List Char :=
  s.rdropWhile jsWhitespace

/-- First index at which `pat` occurs as a contiguous substring of `s`
(`none` when it does not occur).  This is the total core of JS
`String.prototype.indexOf`. -/
def indexOfSub : List Char → List Char → Option Nat
  | [], pat => if pat.isPrefixOf ([] : List Char) then some 0 else none
  | c :: rest, pat =>
    if pat.isPrefixOf (c :: rest) then some 0 else (indexOfSub rest pat).map (· + 1)

/-- JS `s.indexOf(pat)`: first occurrence index, `-1` when absent. -/
def jsIndexOf (s pat : List Char) : Int :=
  match indexOfSub s pat with
  | some i => (i : Int)
  | none => -1

/-- Clamp a JS slice index (possibly negative) for a string of length
`len`: negative indices count from the end, and the result is clamped to
`[0, len]`. -/
def jsIndex (len : Nat) (i : Int) : Nat :=
  if i < 0 then ((len : Int) + i).toNat else min i.toNat len

/-- JS `s.slice(start, stop)`. -/
def jsSlice (s : List Char) (start stop : Int) : List Char :=
  (s.take (jsIndex s.length stop)).drop (jsIndex s.length start)

/-- JS `s.slice(start)`. -/
def jsSliceFrom (s : List Char) (start : Int) : List Char :=
  s.drop (jsIndex s.length start)

/-- Structure `TrimmedString` from `text-processing.ts`: a string decomposed into its
trimmed interior plus the whitespace stripped from each end. -/
structure TrimmedString where
  trimmed : List Char
  leadSpace : List Char
  rearSpace : List Char
deriving DecidableEq, Repr

/-- Function `trimSpace` from `text-processing.ts` (lines 121–125):
`trimmed = s.trim()`, `headEnd = s.indexOf(trimmed)`,
`leadSpace = s.slice(0, headEnd)`, `rearSpace = s.slice(headEnd + trimmed.length)`. -/
def trimSpace (s : List Char) : TrimmedString :=
  { trimmed := jsTrim s
    leadSpace := jsSlice s 0 (jsIndexOf s (jsTrim s))
    rearSpace := jsSliceFrom s (jsIndexOf s (jsTrim s) + ((jsTrim s).length : Int)) }

/-- The newline character used by the prefix splitter. -/
def newline : Char := '\n'

/-- Structure `PrefixComponents` from `text-processing.ts`. -/
structure PrefixComponents where
  head : TrimmedString
  tail : TrimmedString
  overlap : Option (List Char)
deriving DecidableEq, Repr

/-- The backward scan of `getHeadAndTail`: starting from the last line,
count non-blank lines (`lines[i].trim().length > 0`); as soon as the count
reaches the tail threshold 2, return the current index.  The second
argument is the running count, the third is one past the index currently
examined (the JS loop runs `i` from `lines.length - 1` down to `0`). -/
def tailStep (lines : List (List Char)) (j count : Nat) : Nat :=
  if 0 < (jsTrim (lines.getD j [])).length then count + 1 else count

def tailStartGo (lines : List (List Char)) : Nat → Nat → Option Nat
  | _count, 0 => none
  | count, j + 1 =>
    if 2 ≤ tailStep lines j count then some j else tailStartGo lines (tailStep lines j count) j

/-- The `tailStart` value computed by the loop in `getHeadAndTail`
(`none` models the JS sentinel `-1`). -/
def tailStart (lines : List (List Char)) : Option Nat :=
  tailStartGo lines 0 lines.length

/-- Function `getHeadAndTail` from `text-processing.ts`: split the string into
lines, find the start of the tail (at most the last 2 non-empty lines); if
fewer than 2 non-empty lines exist, head and tail are both the trimmed
whole string and `overlap` holds the original. -/
def getHeadAndTail (s : List Char) : PrefixComponents :=
  match tailStart (s.splitOn newline) with
  | none => { head := trimSpace s, tail := trimSpace s, overlap := some s }
  | some k =>
    { head := trimSpace ([newline].intercalate ((s.splitOn newline).take k))
      tail := trimSpace ([newline].intercalate ((s.splitOn newline).drop k))
      overlap := none }

/-- The three components of the head, concatenated. -/
def headPart (c : PrefixComponents) : List Char :=
  c.head.leadSpace ++ c.head.trimmed ++ c.head.rearSpace

/-- The three components of the tail, concatenated. -/
def tailPart (c : PrefixComponents) : List Char :=
  c.tail.leadSpace ++ c.tail.trimmed ++ c.tail.rearSpace

/-- The six-component concatenation asserted by the specification to
reconstruct the original prefix. -/
def reconstructPC (c : PrefixComponents) : List Char :=
  headPart c ++ tailPart c

/-- The opening code-block delimiter token. -/
def OPENING_CODE_TAG : List Char := ("<CODE5711>").toList

/-- The closing code-block delimiter token. -/
def CLOSING_CODE_TAG : List Char := ("</CODE5711>").toList

/-- JS `s.includes(pat)`. -/
def jsIncludes (s pat : List Char) : Bool :=
  (indexOfSub s pat).isSome

/-- JS `s.split(sep)[0]` for a non-empty separator: the portion of `s`
strictly before the first occurrence of `sep`, or all of `s` when `sep`
does not occur. -/
def beforeFirst (sep s : List Char) : List Char :=
  match indexOfSub s sep with
  | some i => s.take i
  | none => s

/-- Function `extractFromCodeBlock` from `text-processing.ts`: if the completion
contains the opening tag it is invalid and the empty string is returned;
otherwise everything before the first closing tag is kept,
right-trimmed. -/
def extractFromCodeBlock (completion : List Char) : List Char :=
  if jsIncludes completion OPENING_CODE_TAG then []
  else jsTrimEnd (beforeFirst CLOSING_CODE_TAG completion)

/-- The zero-width space. -/
def zwsp : Char := '\u200B'

/-- Code-point ranges of the Unicode `Emoji_Presentation` property
(Unicode 15.0 `emoji-data.txt`), as matched by `\p{Emoji_Presentation}`. -/
def emojiPresentationRanges : List (Nat × Nat) :=
  [(0x231A, 0x231B), (0x23E9, 0x23EC), (0x23F0, 0x23F0), (0x23F3, 0x23F3),
   (0x25FD, 0x25FE), (0x2614, 0x2615), (0x2648, 0x2653), (0x267F, 0x267F),
   (0x2693, 0x2693), (0x26A1, 0x26A1), (0x26AA, 0x26AB), (0x26BD, 0x26BE),
   (0x26C4, 0x26C5), (0x26CE, 0x26CE), (0x26D4, 0x26D4), (0x26EA, 0x26EA),
   (0x26F2, 0x26F3), (0x26F5, 0x26F5), (0x26FA, 0x26FA), (0x26FD, 0x26FD),
   (0x2705, 0x2705), (0x270A, 0x270B), (0x2728, 0x2728), (0x274C, 0x274C),
   (0x274E, 0x274E), (0x2753, 0x2755), (0x2757, 0x2757), (0x2795, 0x2797),
   (0x27B0, 0x27B0), (0x27BF, 0x27BF), (0x2B1B, 0x2B1C), (0x2B50, 0x2B50),
   (0x2B55, 0x2B55), (0x1F004, 0x1F004), (0x1F0CF, 0x1F0CF), (0x1F18E, 0x1F18E),
   (0x1F191, 0x1F19A), (0x1F1E6, 0x1F1FF), (0x1F201, 0x1F201), (0x1F21A, 0x1F21A),
   (0x1F22F, 0x1F22F), (0x1F232, 0x1F236), (0x1F238, 0x1F23A), (0x1F250, 0x1F251),
   (0x1F300, 0x1F320), (0x1F32D, 0x1F335), (0x1F337, 0x1F37C), (0x1F37E, 0x1F393),
   (0x1F3A0, 0x1F3CA), (0x1F3CF, 0x1F3D3), (0x1F3E0, 0x1F3F0), (0x1F3F4, 0x1F3F4),
   (0x1F3F8, 0x1F43E), (0x1F440, 0x1F440), (0x1F442, 0x1F4FC), (0x1F4FF, 0x1F53D),
   (0x1F54B, 0x1F54E), (0x1F550, 0x1F567), (0x1F57A, 0x1F57A), (0x1F595, 0x1F596),
   (0x1F5A4, 0x1F5A4), (0x1F5FB, 0x1F64F), (0x1F680, 0x1F6C5), (0x1F6CC, 0x1F6CC),
   (0x1F6D0, 0x1F6D2), (0x1F6D5, 0x1F6D7), (0x1F6DC, 0x1F6DF), (0x1F6EB, 0x1F6EC),
   (0x1F6F4, 0x1F6FC), (0x1F7E0, 0x1F7EB), (0x1F7F0, 0x1F7F0), (0x1F90C, 0x1F93A),
   (0x1F93C, 0x1F945), (0x1F947, 0x1F9FF), (0x1FA70, 0x1FA7C), (0x1FA80, 0x1FA88),
   (0x1FA90, 0x1FABD), (0x1FABF, 0x1FAC5), (0x1FACE, 0x1FADB), (0x1FAE0, 0x1FAE8),
   (0x1FAF0, 0x1FAF8)]

/-- Whether a character has the `Emoji_Presentation` property. -/
def isEmojiPresentation (c : Char) : Bool :=
  emojiPresentationRanges.any fun p => decide (p.1 ≤ c.toNat ∧ c.toNat ≤ p.2)

/-- Length of the alternative of the regex group
`(\p{Emoji_Presentation}|\u{200B}|\+ |- |\. )` matching at the head of
`s` (`none` when no alternative matches).  The alternatives begin with
disjoint characters, so the matching alternative is unique. -/
def unitAt (s : List Char) : Option Nat :=
  match s with
  | [] => none
  | c :: rest =>
    if isEmojiPresentation c || c == zwsp then some 1
    else
      match c, rest with
      | '+', ' ' :: _ => some 2
      | '-', ' ' :: _ => some 2
      | '.', ' ' :: _ => some 2
      | _, _ => none

/-- The greedy `(\s)+` match at the head of `s`: the maximal whitespace
run, required non-empty. -/
def wsRunAt (s : List Char) : Option Nat :=
  if (s.takeWhile jsWhitespace).length = 0 then none
  else some (s.takeWhile jsWhitespace).length

/-- Backtracking matcher for the regex tail `(A)*(\s)+` where `A` is the
bad-start group: prefer consuming one more unit; when the rest fails,
fall back to the whitespace run at the current position. -/
def badStartRest (s : List Char) : Option Nat :=
  match h : unitAt s with
  | some k =>
    match badStartRest (s.drop k) with
    | some m => some (k + m)
    | none => wsRunAt s
  | none => wsRunAt s
termination_by s.length
decreasing_by
  have hk : 1 ≤ k ∧ k ≤ s.length := by
    cases s with
    | nil => simp [unitAt] at h
    | cons c rest =>
      simp only [unitAt] at h
      split at h
      · injection h with hk
        subst hk
        simp only [List.length_cons]
        omega
      · split at h <;>
          first
            | exact Option.noConfusion h
            | (injection h with hk
               subst hk
               simp only [List.length_cons]
               omega)
  simp only [List.length_drop]
  omega

/-- Full match length of the anchored regex
`^(\p{Emoji_Presentation}|\u{200B}|\+ |- |\. )+(\s)+` at the head of
`s` (`none` when the regex does not match). -/
def badStart (s : List Char) : Option Nat :=
  match unitAt s with
  | some k => (badStartRest (s.drop k)).map (k + ·)
  | none => none

/-- Function `fixBadCompletionStart` from `text-processing.ts`: when the
bad-start regex matches, remove the matched portion, otherwise return the
completion unchanged. -/
def fixBadCompletionStart (s : List Char) : List Char :=
  match badStart s with
  | some n => s.drop n
  | none => s

/-- One alternative of the bad-start regex group. -/
def IsBadUnit (u : List Char) : Prop :=
  (∃ c, u = [c] ∧ (isEmojiPresentation c = true ∨ c = zwsp)) ∨
  (∃ x, u = [x, ' '] ∧ (x = '+' ∨ x = '-' ∨ x = '.'))

/-- A (possibly empty) concatenation of bad-start units. -/
inductive IsUnitRun : List Char → Prop
  | nil : IsUnitRun []
  | cons {u t : List Char} : IsBadUnit u → IsUnitRun t → IsUnitRun (u ++ t)

/-- The claim-side bad-start pattern: the string begins with one or more
bad-start units immediately followed by at least one whitespace
character. -/
def HasBadStart (s : List Char) : Prop :=
  ∃ u w v, s = u ++ w ++ v ∧ IsUnitRun u ∧ u ≠ [] ∧ w ≠ [] ∧
    ∀ c ∈ w, jsWhitespace c = true

/-- Constant `NUMBER_OF_CHARS_TO_MATCH_AND_CUT_SUFFIX` from `text-processing.ts`. -/
def matchChars : Nat := 15

/-- Function `getFirstNCharsPreservingLeadingSpaces` from `text-processing.ts`
(lines 200–205): `startIndex = value.search(/\S|$/)` is the index of the
first non-whitespace character (the length when the string is all
whitespace), and the result is `value.slice(0, startIndex + n)`. -/
def getFirstNCharsPreservingLeadingSpaces (value : List Char) (n : Nat) : List Char :=
  value.take ((value.takeWhile jsWhitespace).length + n)

/-- The first line of the suffix with non-empty trimmed content; the JS
loop in `trimUntilSuffix` leaves the empty string when every line is blank. -/
def firstNonEmptyLine (sfx : List Char) : List Char :=
  match (sfx.splitOn newline).find? (fun l => decide (0 < (jsTrim l).length)) with
  | some l => l
  | none => []

/-- The JS expression of the source, slicing the prefix after its last
newline via lastIndexOf (all of the prefix when it has no newline). -/
def lastLineOfPrefix (pfx : List Char) : List Char :=
  (pfx.reverse.takeWhile (fun c => !(c == newline))).reverse

/-- The loop-body condition of `trimUntilSuffix` at line index `i`: the
line (extended with the prefix content on the first line) has a non-empty
leading-spaces-plus-15-characters window and the suffix window starts
with it. -/
def cutLineCond (suffixPart lastPrefixLine : List Char) (i : Nat) (l : List Char) : Bool :=
  let line := if i = 0 then lastPrefixLine ++ l else l
  let linePart := getFirstNCharsPreservingLeadingSpaces line matchChars
  !linePart.isEmpty && linePart.isPrefixOf suffixPart

/-- The break index of the `trimUntilSuffix` loop, scanning the lines
from index `i` (`none` when the loop never breaks). -/
def findCutIndexGo (suffixPart lastPrefixLine : List Char) :
    Nat → List (List Char) → Option Nat
  | _, [] => none
  | i, l :: ls =>
    if cutLineCond suffixPart lastPrefixLine i l then some i
    else findCutIndexGo suffixPart lastPrefixLine (i + 1) ls

/-- Function `trimUntilSuffix` from `text-processing.ts`: right-trim the
insertion; when the suffix has a non-blank line, cut the insertion at the
first line whose leading window matches the suffix window. -/
def trimUntilSuffix (insertion pfx sfx : List Char) : List Char :=
  if (firstNonEmptyLine sfx).length = 0 then jsTrimEnd insertion
  else
    [newline].intercalate
      (((jsTrimEnd insertion).splitOn newline).take
        ((findCutIndexGo
            (getFirstNCharsPreservingLeadingSpaces (firstNonEmptyLine sfx) matchChars)
            (lastLineOfPrefix pfx) 0 ((jsTrimEnd insertion).splitOn newline)).getD
          ((jsTrimEnd insertion).splitOn newline).length))

/-- Number of lines of a completion: the length of its newline split. -/
def lineCount (s : List Char) : Nat := (s.splitOn newline).length

/-- The ranking order: `a` ranks no lower than `b` when it has at least
as many lines. -/
def moreLines (a b : List Char) : Prop := lineCount b ≤ lineCount a

instance : DecidableRel moreLines := fun _ _ => Nat.decLe _ _

instance : IsTotal (List Char) moreLines :=
  ⟨fun a b => (Nat.le_total (lineCount b) (lineCount a))⟩

instance : IsTrans (List Char) moreLines :=
  ⟨fun _ _ _ hab hbc => Nat.le_trans hbc hab⟩

/-- Modelled from the spec: the ranking step of the completion
orchestrator ("sort surviving candidates by descending number of lines,
stable on ties by original request order", §4.4).  The orchestrator
implementation file is missing from the source tree; the stable sort is
realised as an insertion sort, which preserves the original order of
candidates with equal line counts. -/
def rankCompletions (cs : List (List Char)) : List (List Char) :=
  List.insertionSort moreLines cs

/-- Function `indentation` from `text-processing.ts` (lines 41–51): counts the
leading `[\t ]*` run, a tab weighted by the editor tab size. -/
def indentation (tabSize : Nat) (line : List Char) : Nat :=
  (line.takeWhile (fun c => c == ' ' || c == '\t')).foldl
    (fun p c => p + if c == '\t' then tabSize else 1) 0

/-- A purely blank line (`line.trim()` empty). -/
def isBlankLine (l : List Char) : Bool := (jsTrim l).length == 0

/-- Modelled from the spec: the per-language continuation keyword set of
the multi-line truncation engine (§4.2); an `else`/`elif`/`catch`-style
line, possibly preceded by a closing brace as in `} else {`, extends the
block the model is completing. -/
def continuationKeywords : List (List Char) :=
  [("else").toList, ("elif").toList, ("catch").toList]

/-- Strip leading whitespace and one leading closing brace (with the
whitespace after it) so that `} else {` is recognised from its keyword. -/
def stripLeadingCloser (l : List Char) : List Char :=
  match l.dropWhile jsWhitespace with
  | '}' :: rest => rest.dropWhile jsWhitespace
  | other => other

/-- Modelled from the spec: whether a candidate line is a continuation
line (§4.2). -/
def isContinuationLine (l : List Char) : Bool :=
  continuationKeywords.any fun kw => kw.isPrefixOf (stripLeadingCloser l)

/-- Modelled from the spec: a line is a candidate terminator when its
indentation is less-than-or-equal to the start indentation and it is not
a continuation line; blank lines never terminate (§4.2). -/
def isTerminatorLine (tabSize startIndent : Nat) (l : List Char) : Bool :=
  !isBlankLine l && decide (indentation tabSize l ≤ startIndent) && !isContinuationLine l

/-- A line whose trimmed content is exactly a lone closing bracket. -/
def isLoneCloser (l : List Char) : Bool := jsTrim l == ['\x7d']

/-- Modelled from the spec: the line walk of the multi-line truncation
engine (§4.2): emit candidate lines until the first terminator line,
excluding it, UNLESS that terminator is exactly a lone closing bracket
whose closer the original surrounding context does not already supply --
in that case the closer is included and the walk stops
(closing-bracket retention, §4.2; this is the behaviour the test
"includes closing parentheses in the completion" pins down, while
"skips over else blocks" shows the closer being cut when the text after
the cursor already supplies it).  The Boolean `closerInContext`
abstracts whether the surrounding prefix/suffix already supplies the
closing bracket of the block being completed. -/
def truncateLines (tabSize startIndent : Nat) (closerInContext : Bool) :
    List (List Char) → List (List Char)
  | [] => []
  | l :: ls =>
    if isTerminatorLine tabSize startIndent l then
      if isLoneCloser l && !closerInContext then [l] else []
    else l :: truncateLines tabSize startIndent closerInContext ls

/-- Modelled from the spec: a cache entry keyed by the exact
(prefix, suffix) pair of the originating request, storing the accepted
completion text (§3, §4.3). -/
structure CacheEntry where
  keyPrefix : List Char
  keySuffix : List Char
  completion : List Char

/-- Modelled from the spec: cache lookup with the synthesis rule (§4.3):
when the new prefix equals a cached prefix with extra characters appended
that are themselves a strict prefix of the stored completion and the
suffix is unchanged, return the remainder of the stored completion. -/
def cacheGet (entries : List CacheEntry) (p s : List Char) : Option (List Char) :=
  entries.findSome? fun e =>
    if e.keyPrefix.isPrefixOf p && e.keySuffix == s &&
        (p.drop e.keyPrefix.length).isPrefixOf e.completion &&
        decide ((p.drop e.keyPrefix.length).length < e.completion.length) then
      some (e.completion.drop (p.drop e.keyPrefix.length).length)
    else none

/-- Modelled from the spec: the behaviour of the external completions
client within one trigger -- it either responds with raw completion
texts or stalls (a request that never resolves, §5). -/
inductive ClientBehavior where
  | responds (completions : List (List Char))
  | stalls

/-- Modelled from the spec: the short-circuit / request decision of the
orchestrator (§4.4): a cache synthesis hit produces its candidate with
zero requests issued; on a miss one round of requests is issued and a
result is only available when the client responds.  The first component
is `none` while the trigger is still waiting on a stalled client; the
second counts requests issued to the client. -/
def pipelineStep (entries : List CacheEntry) (p s : List Char) (client : ClientBehavior) :
    Option (List (List Char)) × Nat :=
  match cacheGet entries p s with
  | some c => (some [c], 0)
  | none =>
    match client with
    | ClientBehavior.responds cs => (some cs, 1)
    | ClientBehavior.stalls => (none, 1)

/-- Modelled from the spec: the outcome of one parallel model-request
branch -- raw completion text, or a thrown request failure (§4.4
"Failure"). -/
inductive BranchOutcome where
  | ok (raw : List Char)
  | err
deriving DecidableEq

/-- Modelled from the spec: branch aggregation -- a branch that throws
contributes zero candidates; the other branches contribute theirs in
request order (§4.4). -/
def aggregateBranches (bs : List BranchOutcome) : List (List Char) :=
  bs.filterMap fun b =>
    match b with
    | BranchOutcome.ok c => some c
    | BranchOutcome.err => none

/-- Modelled from the spec: the public entry point ranks the aggregated
candidates and never lets a recoverable error escape; `Except` makes a
thrown error representable so that the never-throw contract is a
provable statement (§7). -/
def provideInlineCompletionItems (bs : List BranchOutcome) :
    Except (List Char) (List (List Char)) :=
  Except.ok (rankCompletions (aggregateBranches bs))

/-! Theorems about the embedded definitions. -/

theorem indexOfSub_le_length :
    ∀ {s pat : List Char} {i : Nat}, indexOfSub s pat = some i → i ≤ s.length := by
  intro s
  induction s with
  | nil =>
    intro pat i h
    unfold indexOfSub at h
    split at h
    · simp_all
    · exact absurd h (by simp)
  | cons c rest ih =>
    intro pat i h
    unfold indexOfSub at h
    split at h
    · obtain rfl : i = 0 := by simp_all
      omega
    · obtain ⟨j, hj, hji⟩ := Option.map_eq_some'.mp h
      have := ih hj
      simp only [List.length_cons]
      omega

theorem indexOfSub_isPrefixOf :
    ∀ {s pat : List Char} {i : Nat}, indexOfSub s pat = some i → pat <+: s.drop i := by
  intro s
  induction s with
  | nil =>
    intro pat i h
    unfold indexOfSub at h
    split at h
    case isTrue hp =>
      obtain rfl : i = 0 := by simp_all
      simpa using List.isPrefixOf_iff_prefix.mp hp
    case isFalse => exact absurd h (by simp)
  | cons c rest ih =>
    intro pat i h
    unfold indexOfSub at h
    split at h
    case isTrue hp =>
      obtain rfl : i = 0 := by simp_all
      simpa using List.isPrefixOf_iff_prefix.mp hp
    case isFalse =>
      obtain ⟨j, hj, hji⟩ := Option.map_eq_some'.mp h
      subst hji
      simpa using ih hj

theorem indexOfSub_min :
    ∀ {s pat : List Char} {i : Nat}, indexOfSub s pat = some i →
      ∀ j, j < i → ¬ pat <+: s.drop j := by
  intro s
  induction s with
  | nil =>
    intro pat i h
    unfold indexOfSub at h
    split at h
    · obtain rfl : i = 0 := by simp_all
      omega
    · exact absurd h (by simp)
  | cons c rest ih =>
    intro pat i h
    unfold indexOfSub at h
    split at h
    case isTrue hp =>
      obtain rfl : i = 0 := by simp_all
      omega
    case isFalse hp =>
      obtain ⟨j₀, hj₀, hji⟩ := Option.map_eq_some'.mp h
      subst hji
      intro j hj hpre
      match j with
      | 0 =>
        exact hp (List.isPrefixOf_iff_prefix.mpr (by simpa using hpre))
      | j' + 1 =>
        exact ih hj₀ j' (by omega) (by simpa using hpre)

theorem exists_indexOfSub_of_isInfix :
    ∀ {s pat : List Char}, pat <:+: s → ∃ i, indexOfSub s pat = some i := by
  intro s
  induction s with
  | nil =>
    intro pat h
    obtain rfl : pat = [] := List.infix_nil.mp h
    exact ⟨0, by simp [indexOfSub]⟩
  | cons c rest ih =>
    intro pat h
    by_cases hp : pat.isPrefixOf (c :: rest)
    · exact ⟨0, by simp [indexOfSub, hp]⟩
    · have hinf : pat <:+: rest := by
        rcases List.infix_cons_iff.mp h with hpre | hinf
        · exact absurd (List.isPrefixOf_iff_prefix.mpr hpre) hp
        · exact hinf
      obtain ⟨j, hj⟩ := ih hinf
      exact ⟨j + 1, by simp [indexOfSub, hp, hj]⟩

theorem jsTrim_isInfix (s : List Char) : jsTrim s <:+: s :=
  List.IsInfix.trans (( List.rdropWhile_prefix _ _).isInfix) ((List.dropWhile_suffix _).isInfix)

theorem jsIndex_natCast (len i : Nat) (h : i ≤ len) : jsIndex len (i : Int) = i := by
  unfold jsIndex
  rw [if_neg (by omega), Int.toNat_natCast]
  exact Nat.min_eq_left h

/-- C4: for every string `s`, the `TrimmedString` decomposition produced by
`trimSpace` satisfies `leadSpace(s) ++ trimmed(s) ++ rearSpace(s) = s`:
concatenating the three components reconstructs the original string
exactly. -/
theorem trimSpace_reconstructs (s : List Char) :
    (trimSpace s).leadSpace ++ (trimSpace s).trimmed ++ (trimSpace s).rearSpace = s := by
  obtain ⟨i, hi⟩ := exists_indexOfSub_of_isInfix (jsTrim_isInfix s)
  have hle : i ≤ s.length := indexOfSub_le_length hi
  have hpre : jsTrim s <+: s.drop i := indexOfSub_isPrefixOf hi
  obtain ⟨r, hr⟩ := hpre
  have hlen : i + (jsTrim s).length ≤ s.length := by
    have := congrArg List.length hr
    simp only [List.length_append, List.length_drop] at this
    omega
  have hidx : jsIndexOf s (jsTrim s) = (i : Int) := by simp [jsIndexOf, hi]
  simp only [trimSpace, hidx]
  have hcast : (i : Int) + ((jsTrim s).length : Int) = ((i + (jsTrim s).length : Nat) : Int) := by
    push_cast; ring
  rw [hcast]
  unfold jsSlice jsSliceFrom
  rw [jsIndex_natCast _ _ hle, jsIndex_natCast _ _ hlen]
  have hzero : jsIndex s.length 0 = 0 := by simp [jsIndex]
  have hdrop : s.drop (i + (jsTrim s).length) = r := by
    have : (s.drop i).drop (jsTrim s).length = r := by
      rw [← hr]; simp
    rwa [List.drop_drop] at this
  rw [hzero, List.drop_zero, hdrop, List.append_assoc, hr, List.take_append_drop]

theorem tailStartGo_lt (lines : List (List Char)) :
    ∀ {i count j}, tailStartGo lines count i = some j → j < i := by
  intro i
  induction i with
  | zero => intro count j h; exact absurd h (by simp [tailStartGo])
  | succ n ih =>
    intro count j h
    unfold tailStartGo at h
    split at h
    · obtain rfl : n = j := by simp_all
      omega
    · exact Nat.lt_succ_of_lt (ih h)

theorem tailStart_lt_length {lines : List (List Char)} {k : Nat}
    (h : tailStart lines = some k) : k < lines.length :=
  tailStartGo_lt lines h

theorem intercalate_cons₂ (c : Char) (x y : List Char) (t : List (List Char)) :
    [c].intercalate (x :: y :: t) = x ++ c :: [c].intercalate (y :: t) := by
  simp [List.intercalate]

theorem intercalate_append_of_ne_nil (c : Char) :
    ∀ (xs ys : List (List Char)), xs ≠ [] → ys ≠ [] →
      [c].intercalate (xs ++ ys) = [c].intercalate xs ++ c :: [c].intercalate ys := by
  intro xs
  induction xs with
  | nil => intro ys h; exact absurd rfl h
  | cons x xs ih =>
    intro ys _ hys
    cases xs with
    | nil =>
      cases ys with
      | nil => exact absurd rfl hys
      | cons y t =>
        calc [c].intercalate ([x] ++ y :: t)
            = x ++ c :: [c].intercalate (y :: t) := intercalate_cons₂ c x y t
          _ = [c].intercalate [x] ++ c :: [c].intercalate (y :: t) := by
              simp [List.intercalate]
    | cons x' xt =>
      calc [c].intercalate ((x :: x' :: xt) ++ ys)
          = x ++ c :: [c].intercalate ((x' :: xt) ++ ys) := intercalate_cons₂ c x x' (xt ++ ys)
        _ = x ++ c :: ([c].intercalate (x' :: xt) ++ c :: [c].intercalate ys) := by
            rw [ih ys (by simp) hys]
        _ = (x ++ c :: [c].intercalate (x' :: xt)) ++ c :: [c].intercalate ys := by
            simp [List.append_assoc]
        _ = [c].intercalate (x :: x' :: xt) ++ c :: [c].intercalate ys := by
            rw [intercalate_cons₂]

theorem splitOn_newline_ne_nil (s : List Char) : s.splitOn newline ≠ [] := by
  unfold List.splitOn
  exact List.splitOnP_ne_nil _ _

/-- C5 (amended): for every prefix `s` on which `getHeadAndTail` sets no
overlap, the six-component concatenation reconstructs `s` once the single
separating newline between head and tail is restored; when the tail starts
at line 0 the head components are empty and the plain concatenation
already equals `s`. -/
theorem getHeadAndTail_reconstructs (s : List Char)
    (h : (getHeadAndTail s).overlap = none) :
    ∃ k, tailStart (s.splitOn newline) = some k ∧
      ((k = 0 ∧ reconstructPC (getHeadAndTail s) = s) ∨
       (0 < k ∧ headPart (getHeadAndTail s) ++ newline :: tailPart (getHeadAndTail s) = s)) := by
  cases hts : tailStart (s.splitOn newline) with
  | none => simp [getHeadAndTail, hts] at h
  | some k =>
    refine ⟨k, rfl, ?_⟩
    have hk : k < (s.splitOn newline).length := tailStart_lt_length hts
    have hhead : headPart (getHeadAndTail s)
        = [newline].intercalate ((s.splitOn newline).take k) := by
      simp only [getHeadAndTail, hts, headPart]
      exact trimSpace_reconstructs _
    have htail : tailPart (getHeadAndTail s)
        = [newline].intercalate ((s.splitOn newline).drop k) := by
      simp only [getHeadAndTail, hts, tailPart]
      exact trimSpace_reconstructs _
    rcases Nat.eq_zero_or_pos k with hk0 | hkpos
    · subst hk0
      left
      refine ⟨rfl, ?_⟩
      rw [reconstructPC, hhead, htail]
      simp only [List.take_zero, List.drop_zero]
      simpa [List.intercalate] using List.intercalate_splitOn s newline
    · right
      refine ⟨hkpos, ?_⟩
      rw [hhead, htail, ← intercalate_append_of_ne_nil]
      · rw [List.take_append_drop]
        exact List.intercalate_splitOn s newline
      · intro hnil
        have := congrArg List.length hnil
        simp only [List.length_take, List.length_nil] at this
        omega
      · intro hnil
        have := congrArg List.length hnil
        simp only [List.length_drop, List.length_nil] at this
        omega

/-- C5 counterexample: on the three-line prefix "a\nb\nc" the tail starts
at line 1, the separating newline is dropped by the split, and the
six-component concatenation gives "ab\nc", not the original string. -/
theorem getHeadAndTail_not_exact_on_three_lines :
    (getHeadAndTail ("a\nb\nc").toList).overlap = none ∧
    reconstructPC (getHeadAndTail ("a\nb\nc").toList) ≠ ("a\nb\nc").toList := by
  decide

theorem getHeadAndTail_reconstructs_witness :
    (getHeadAndTail ("a\nb\nc").toList).overlap = none ∧
    (∃ k, tailStart (("a\nb\nc").toList.splitOn newline) = some k ∧
      ((k = 0 ∧ reconstructPC (getHeadAndTail ("a\nb\nc").toList) = ("a\nb\nc").toList) ∨
       (0 < k ∧ headPart (getHeadAndTail ("a\nb\nc").toList) ++
          newline :: tailPart (getHeadAndTail ("a\nb\nc").toList) = ("a\nb\nc").toList))) :=
  ⟨by decide, getHeadAndTail_reconstructs (("a\nb\nc").toList) (by decide)⟩

theorem jsIncludes_iff_isInfix {s pat : List Char} : jsIncludes s pat = true ↔ pat <:+: s := by
  constructor
  · intro h
    obtain ⟨i, hi⟩ := Option.isSome_iff_exists.mp h
    have hpre := indexOfSub_isPrefixOf hi
    obtain ⟨r, hr⟩ := hpre
    exact ⟨s.take i, r, by rw [List.append_assoc, hr, List.take_append_drop]⟩
  · intro h
    obtain ⟨i, hi⟩ := exists_indexOfSub_of_isInfix h
    simp [jsIncludes, hi]

theorem isInfix_of_first_occurrence {s pat : List Char} {i : Nat}
    (h1 : pat <+: s.drop i) : pat <:+: s := by
  obtain ⟨r, hr⟩ := h1
  exact ⟨s.take i, r, by rw [List.append_assoc, hr, List.take_append_drop]⟩

/-- If the first occurrence of a pattern in `s` is at `i`, then
`indexOfSub` finds exactly `i`. -/
theorem indexOfSub_eq_of_first {s pat : List Char} {i : Nat}
    (h1 : pat <+: s.drop i) (h2 : ∀ j, j < i → ¬ pat <+: s.drop j) :
    indexOfSub s pat = some i := by
  obtain ⟨i', hi'⟩ := exists_indexOfSub_of_isInfix (isInfix_of_first_occurrence h1)
  have hp' := indexOfSub_isPrefixOf hi'
  have hmin' := indexOfSub_min hi'
  have hii : i = i' := by
    rcases Nat.lt_trichotomy i i' with h | h | h
    · exact absurd h1 (hmin' i h)
    · exact h
    · exact absurd hp' (h2 i' h)
  rw [hi', hii]

/-- C6: for every raw completion `c`: if `c` contains the opening
delimiter anywhere, `extractFromCodeBlock c` is empty; if `c` contains no
closing delimiter, the result is `c` with only trailing whitespace
removed; and if the first occurrence of the closing delimiter is at
position `i`, the result is the portion of `c` strictly before `i` with
only trailing whitespace removed (leading whitespace preserved by
construction of `jsTrimEnd`). -/
theorem extractFromCodeBlock_spec (c : List Char) :
    (OPENING_CODE_TAG <:+: c → extractFromCodeBlock c = []) ∧
    (¬ OPENING_CODE_TAG <:+: c → ¬ CLOSING_CODE_TAG <:+: c →
      extractFromCodeBlock c = jsTrimEnd c) ∧
    (¬ OPENING_CODE_TAG <:+: c → ∀ i,
      CLOSING_CODE_TAG <+: c.drop i →
      (∀ j, j < i → ¬ CLOSING_CODE_TAG <+: c.drop j) →
      extractFromCodeBlock c = jsTrimEnd (c.take i)) := by
  refine ⟨?_, ?_, ?_⟩
  · intro hop
    rw [extractFromCodeBlock, if_pos (jsIncludes_iff_isInfix.mpr hop)]
  · intro hop hcl
    rw [extractFromCodeBlock, if_neg (fun h => hop (jsIncludes_iff_isInfix.mp h))]
    have hnone : indexOfSub c CLOSING_CODE_TAG = none := by
      cases h : indexOfSub c CLOSING_CODE_TAG with
      | none => rfl
      | some i =>
        exact absurd (isInfix_of_first_occurrence (indexOfSub_isPrefixOf h)) hcl
    rw [beforeFirst, hnone]
  · intro hop i h1 h2
    rw [extractFromCodeBlock, if_neg (fun h => hop (jsIncludes_iff_isInfix.mp h))]
    rw [beforeFirst, indexOfSub_eq_of_first h1 h2]

theorem extractFromCodeBlock_spec_witness :
    (¬ OPENING_CODE_TAG <:+: ("ab </CODE5711>cd").toList) ∧
    (CLOSING_CODE_TAG <+: (("ab </CODE5711>cd").toList.drop 3) ∧
      (∀ j, j < 3 → ¬ CLOSING_CODE_TAG <+: (("ab </CODE5711>cd").toList.drop j)) ∧
      extractFromCodeBlock (("ab </CODE5711>cd").toList) =
        jsTrimEnd ((("ab </CODE5711>cd").toList).take 3)) :=
  ⟨by decide,
    by decide,
    by decide,
    (extractFromCodeBlock_spec (("ab </CODE5711>cd").toList)).2.2 (by decide) 3
      (by decide) (by decide)⟩

/-- C10: the extracted code block never contains the opening or the
closing delimiter token as a substring. -/
theorem extractFromCodeBlock_no_tags (c : List Char) :
    ¬ OPENING_CODE_TAG <:+: extractFromCodeBlock c ∧
    ¬ CLOSING_CODE_TAG <:+: extractFromCodeBlock c := by
  by_cases hop : jsIncludes c OPENING_CODE_TAG
  · rw [extractFromCodeBlock, if_pos hop]
    constructor <;> · intro h; exact absurd (List.eq_nil_of_infix_nil h) (by decide)
  · rw [extractFromCodeBlock, if_neg hop]
    have hres_pre : jsTrimEnd (beforeFirst CLOSING_CODE_TAG c) <+: beforeFirst CLOSING_CODE_TAG c :=
      List.rdropWhile_prefix _ _
    have hbf_pre : beforeFirst CLOSING_CODE_TAG c <+: c := by
      rw [beforeFirst]
      cases h : indexOfSub c CLOSING_CODE_TAG with
      | none => exact List.prefix_refl c
      | some i => exact List.take_prefix i c
    constructor
    · intro h
      exact hop (jsIncludes_iff_isInfix.mpr
        (h.trans ((hres_pre.trans hbf_pre).isInfix)))
    · intro h
      cases hco : indexOfSub c CLOSING_CODE_TAG with
      | none =>
        have : CLOSING_CODE_TAG <:+: c := h.trans ((hres_pre.trans hbf_pre).isInfix)
        obtain ⟨i, hi⟩ := exists_indexOfSub_of_isInfix this
        rw [hco] at hi
        exact absurd hi (by simp)
      | some i =>
        have hbf : beforeFirst CLOSING_CODE_TAG c = c.take i := by
          simp only [beforeFirst, hco]
        rw [hbf] at hres_pre h
        have htake : CLOSING_CODE_TAG <:+: c.take i := h.trans hres_pre.isInfix
        obtain ⟨l, r, hlr⟩ := htake
        have hile : i ≤ c.length := indexOfSub_le_length hco
        have hlen := congrArg List.length hlr
        simp only [List.length_append, List.length_take, Nat.min_eq_left hile] at hlen
        have hjlt : l.length < i := by
          have hC : 0 < CLOSING_CODE_TAG.length := by decide
          omega
        have hpre : CLOSING_CODE_TAG <+: c.drop l.length := by
          have hdt : (c.take i).drop l.length = CLOSING_CODE_TAG ++ r := by
            rw [← hlr, List.append_assoc]
            exact List.drop_left l (CLOSING_CODE_TAG ++ r)
          have h1 : CLOSING_CODE_TAG <+: (c.take i).drop l.length := ⟨r, hdt.symm⟩
          have h2 : (c.take i).drop l.length <+: c.drop l.length := by
            have ht := List.take_drop l.length (i - l.length) c
            rw [Nat.add_sub_cancel' (Nat.le_of_lt hjlt)] at ht
            rw [← ht]
            exact List.take_prefix _ _
          exact h1.trans h2
        exact indexOfSub_min hco l.length hjlt hpre

theorem unitAt_pos {s : List Char} {k : Nat} (h : unitAt s = some k) :
    1 ≤ k ∧ k ≤ s.length := by
  cases s with
  | nil => simp [unitAt] at h
  | cons c rest =>
    simp only [unitAt] at h
    split at h
    · injection h with hk
      subst hk
      simp only [List.length_cons]
      omega
    · split at h <;>
        first
          | exact Option.noConfusion h
          | (injection h with hk
             subst hk
             simp only [List.length_cons]
             omega)

theorem emojiRanges_lb : ∀ p ∈ emojiPresentationRanges, 8986 ≤ p.1 := by decide

theorem emojiRanges_gap : ∀ p ∈ emojiPresentationRanges,
    p.2 ≤ 11093 ∨ 126980 ≤ p.1 := by decide

theorem isEmojiPresentation_eq_false_of_ws {c : Char} (h : jsWhitespace c = true) :
    isEmojiPresentation c = false := by
  simp only [jsWhitespace, jsWhitespaceCodes, List.mem_cons, List.not_mem_nil,
    Bool.or_eq_true, decide_eq_true_eq] at h
  rw [isEmojiPresentation, List.any_eq_false]
  intro p hp
  have h1 := emojiRanges_lb p hp
  have h2 := emojiRanges_gap p hp
  simp only [decide_eq_true_eq]
  rcases h with (h | h | h | h | h | h | h | h | h | h | h | h | h | h | h) | h <;>
    first
      | exact h.elim
      | omega

theorem ws_not_special {c : Char} (h : jsWhitespace c = true) :
    c ≠ zwsp ∧ c ≠ '+' ∧ c ≠ '-' ∧ c ≠ '.' := by
  refine ⟨?_, ?_, ?_, ?_⟩ <;>
    · intro hEq
      rw [hEq] at h
      exact absurd h (by decide)

theorem unitAt_none_of_ws {c : Char} {rest : List Char} (h : jsWhitespace c = true) :
    unitAt (c :: rest) = none := by
  have he := isEmojiPresentation_eq_false_of_ws h
  obtain ⟨h1, h2, h3, h4⟩ := ws_not_special h
  have hz : (c == zwsp) = false := by
    simpa using h1
  simp only [unitAt, he, hz, Bool.or_self, Bool.false_eq_true, if_false]
  split <;> simp_all

theorem unitAt_unit {u rest : List Char} (h : IsBadUnit u) :
    unitAt (u ++ rest) = some u.length := by
  rcases h with ⟨c, rfl, hc⟩ | ⟨x, rfl, hx⟩
  · have hcond : (isEmojiPresentation c || c == zwsp) = true := by
      rcases hc with h | rfl
      · simp [h]
      · simp
    simp [unitAt, hcond]
  · rcases hx with rfl | rfl | rfl <;>
      · rw [show ([_, ' '] ++ rest : List Char) = _ :: ' ' :: rest from rfl]
        rw [unitAt, if_neg (by decide)]
        rfl

theorem wsRunAt_some {s : List Char} {m : Nat} (h : wsRunAt s = some m) :
    s.takeWhile jsWhitespace ≠ [] ∧ m = (s.takeWhile jsWhitespace).length := by
  unfold wsRunAt at h
  split at h
  · exact Option.noConfusion h
  · injection h with hm
    subst hm
    refine ⟨?_, rfl⟩
    intro hnil
    simp_all

theorem wsRunAt_of_ws_head {c : Char} {t : List Char} (h : jsWhitespace c = true) :
    wsRunAt (c :: t) = some ((c :: t).takeWhile jsWhitespace).length := by
  have htw : (c :: t).takeWhile jsWhitespace = c :: t.takeWhile jsWhitespace := by
    simp [List.takeWhile_cons, h]
  rw [wsRunAt, if_neg (by simp [htw])]

theorem badStartRest_of_run {rest : List Char} (hrest : ∃ c t, rest = c :: t ∧ jsWhitespace c = true)
    {u : List Char} (hu : IsUnitRun u) :
    badStartRest (u ++ rest) = some (u.length + (rest.takeWhile jsWhitespace).length) := by
  induction hu with
  | nil =>
    obtain ⟨c, t, rfl, hc⟩ := hrest
    rw [List.nil_append, List.length_nil, Nat.zero_add]
    unfold badStartRest
    split
    next k heqk =>
      rw [unitAt_none_of_ws hc] at heqk
      exact Option.noConfusion heqk
    next heqn =>
      exact wsRunAt_of_ws_head hc
  | cons h1 ht ih =>
    rename_i u1 t1
    rw [List.append_assoc]
    have heq1 : unitAt (u1 ++ (t1 ++ rest)) = some u1.length := unitAt_unit h1
    unfold badStartRest
    split
    next k heqk =>
      rw [heq1] at heqk
      injection heqk with hk
      subst hk
      rw [List.drop_left, ih]
      simp [List.length_append, Nat.add_assoc]
    next heqn =>
      rw [heq1] at heqn
      exact Option.noConfusion heqn

theorem unitAt_some_unit {s : List Char} {k : Nat} (h : unitAt s = some k) :
    IsBadUnit (s.take k) := by
  cases s with
  | nil => simp [unitAt] at h
  | cons c rest =>
    simp only [unitAt] at h
    split at h
    next hcond =>
      injection h with hk
      subst hk
      by_cases he : isEmojiPresentation c = true
      · exact Or.inl ⟨c, rfl, Or.inl he⟩
      · have hz : c = zwsp := by
          simp only [Bool.not_eq_true] at he
          simpa [he] using hcond
        exact Or.inl ⟨c, rfl, Or.inr hz⟩
    next hcond =>
      split at h <;>
        first
          | exact Option.noConfusion h
          | (injection h with hk
             subst hk
             exact Or.inr ⟨_, rfl, by simp⟩)

theorem badStartRest_some : ∀ (n : Nat) {s : List Char} {m : Nat}, s.length ≤ n →
    badStartRest s = some m →
    ∃ u w, IsUnitRun u ∧ w ≠ [] ∧ (∀ c ∈ w, jsWhitespace c = true) ∧
      m = u.length + w.length ∧ u ++ w <+: s := by
  intro n
  induction n with
  | zero =>
    intro s m hlen h
    have hs : s = [] := List.length_eq_zero.mp (Nat.le_zero.mp hlen)
    subst hs
    unfold badStartRest at h
    split at h
    next k heqk => simp [unitAt] at heqk
    next =>
      obtain ⟨hne, _⟩ := wsRunAt_some h
      simp at hne
  | succ n ih =>
    intro s m hlen h
    unfold badStartRest at h
    split at h
    next k heqk =>
      obtain ⟨hk1, hk2⟩ := unitAt_pos heqk
      split at h
      next m' hrec =>
        injection h with hm
        subst hm
        have hlen' : (s.drop k).length ≤ n := by
          simp only [List.length_drop]
          omega
        obtain ⟨u', w, hrun, hwne, hwall, hm', hpre⟩ := ih hlen' hrec
        refine ⟨s.take k ++ u', w, IsUnitRun.cons (unitAt_some_unit heqk) hrun, hwne, hwall, ?_, ?_⟩
        · simp only [List.length_append, List.length_take]
          omega
        · obtain ⟨v, hv⟩ := hpre
          refine ⟨v, ?_⟩
          calc ((s.take k ++ u') ++ w) ++ v
              = s.take k ++ ((u' ++ w) ++ v) := by simp [List.append_assoc]
            _ = s.take k ++ s.drop k := by rw [hv]
            _ = s := List.take_append_drop k s
      next hrec =>
        obtain ⟨hne, hm⟩ := wsRunAt_some h
        subst hm
        exact ⟨[], s.takeWhile jsWhitespace, IsUnitRun.nil, hne,
          fun c hc => List.mem_takeWhile_imp hc, by simp, by simpa using List.takeWhile_prefix _⟩
    next heqn =>
      obtain ⟨hne, hm⟩ := wsRunAt_some h
      subst hm
      exact ⟨[], s.takeWhile jsWhitespace, IsUnitRun.nil, hne,
        fun c hc => List.mem_takeWhile_imp hc, by simp, by simpa using List.takeWhile_prefix _⟩

theorem badStart_some_hasBadStart {s : List Char} {m : Nat}
    (h : badStart s = some m) : HasBadStart s := by
  unfold badStart at h
  split at h
  next k heqk =>
    obtain ⟨m', hrec, _⟩ := Option.map_eq_some'.mp h
    obtain ⟨hk1, hk2⟩ := unitAt_pos heqk
    obtain ⟨u', w, hrun, hwne, hwall, _, hpre⟩ :=
      badStartRest_some (s.drop k).length (Nat.le_refl _) hrec
    obtain ⟨v, hv⟩ := hpre
    refine ⟨s.take k ++ u', w, v, ?_, IsUnitRun.cons (unitAt_some_unit heqk) hrun, ?_, hwne, hwall⟩
    · have hback : ((s.take k ++ u') ++ w) ++ v = s :=
        calc ((s.take k ++ u') ++ w) ++ v
            = s.take k ++ ((u' ++ w) ++ v) := by simp [List.append_assoc]
          _ = s.take k ++ s.drop k := by rw [hv]
          _ = s := List.take_append_drop k s
      calc s = ((s.take k ++ u') ++ w) ++ v := hback.symm
        _ = (s.take k ++ u') ++ w ++ v := by simp [List.append_assoc]
    · intro hnil
      have := congrArg List.length hnil
      simp only [List.length_append, List.length_take, List.length_nil] at this
      omega
  next => exact Option.noConfusion h

theorem dropWhile_eq_drop (l : List Char) :
    l.dropWhile jsWhitespace = l.drop (l.takeWhile jsWhitespace).length := by
  induction l with
  | nil => rfl
  | cons c t ih =>
    by_cases hc : jsWhitespace c = true
    · simp [List.dropWhile_cons, List.takeWhile_cons, hc, ih]
    · simp [List.dropWhile_cons, List.takeWhile_cons, hc]

theorem badStart_of_run {u : List Char} (hu : IsUnitRun u) (hne : u ≠ [])
    {w v : List Char} (hw : w ≠ []) (hws : ∀ c ∈ w, jsWhitespace c = true) :
    badStart (u ++ w ++ v) = some (u.length + ((w ++ v).takeWhile jsWhitespace).length) := by
  cases hu with
  | nil => exact absurd rfl hne
  | cons h1 ht =>
    rename_i u1 t1
    have hrest : ∃ c t, w ++ v = c :: t ∧ jsWhitespace c = true := by
      cases w with
      | nil => exact absurd rfl hw
      | cons c t => exact ⟨c, t ++ v, rfl, hws c (by simp)⟩
    rw [List.append_assoc, List.append_assoc]
    have heq1 : unitAt (u1 ++ (t1 ++ (w ++ v))) = some u1.length := unitAt_unit h1
    unfold badStart
    simp only [heq1]
    rw [List.drop_left, badStartRest_of_run hrest ht]
    simp only [Option.map_some', List.length_append]
    rw [← Nat.add_assoc]

/-- C8: a completion beginning with a run of one or more bad-start units
(emoji-presentation character, zero-width space, `"+ "`, `"- "`, `". "`)
immediately followed by whitespace has that entire leading run and the
following whitespace stripped (the result is the remainder after the unit
run with its leading whitespace removed); any completion not beginning
with this exact pattern is returned unchanged. -/
theorem fixBadCompletionStart_spec :
    (∀ s u w v, s = u ++ w ++ v → IsUnitRun u → u ≠ [] → w ≠ [] →
      (∀ c ∈ w, jsWhitespace c = true) →
      fixBadCompletionStart s = (s.drop u.length).dropWhile jsWhitespace) ∧
    (∀ s, ¬ HasBadStart s → fixBadCompletionStart s = s) := by
  constructor
  · intro s u w v hs hu hune hwne hws
    subst hs
    have hbs := badStart_of_run hu hune (v := v) hwne hws
    simp only [fixBadCompletionStart, hbs]
    rw [List.append_assoc]
    calc (u ++ (w ++ v)).drop (u.length + ((w ++ v).takeWhile jsWhitespace).length)
        = ((u ++ (w ++ v)).drop u.length).drop ((w ++ v).takeWhile jsWhitespace).length := by
          rw [List.drop_drop]
      _ = (w ++ v).drop ((w ++ v).takeWhile jsWhitespace).length := by rw [List.drop_left]
      _ = (w ++ v).dropWhile jsWhitespace := (dropWhile_eq_drop _).symm
      _ = ((u ++ (w ++ v)).drop u.length).dropWhile jsWhitespace := by rw [List.drop_left]
  · intro s hn
    cases hb : badStart s with
    | none => simp [fixBadCompletionStart, hb]
    | some m => exact absurd (badStart_some_hasBadStart hb) hn

theorem fixBadCompletionStart_spec_witness :
    fixBadCompletionStart (("➕     1").toList) =
      ((("➕     1").toList.drop 1).dropWhile jsWhitespace) :=
  fixBadCompletionStart_spec.1 (("➕     1").toList) ['➕'] (("     ").toList) ['1']
    (by decide) (IsUnitRun.cons (Or.inl ⟨'➕', rfl, Or.inl (by decide)⟩) IsUnitRun.nil)
    (by decide) (by decide) (by decide)

theorem findCutIndexGo_some {sp lp : List Char} :
    ∀ {ls : List (List Char)} {i r : Nat}, findCutIndexGo sp lp i ls = some r →
      i ≤ r ∧ r - i < ls.length ∧ cutLineCond sp lp r (ls.getD (r - i) []) = true ∧
      ∀ j, i ≤ j → j < r → cutLineCond sp lp j (ls.getD (j - i) []) = false := by
  intro ls
  induction ls with
  | nil => intro i r h; exact Option.noConfusion h
  | cons l ls ih =>
    intro i r h
    unfold findCutIndexGo at h
    split at h
    next hcond =>
      injection h with hr
      subst hr
      refine ⟨Nat.le_refl _, by simp, by simpa using hcond, ?_⟩
      intro j hj1 hj2
      omega
    next hcond =>
      obtain ⟨h1, h2, h3, h4⟩ := ih h
      refine ⟨by omega, ?_, ?_, ?_⟩
      · simp only [List.length_cons]
        omega
      · have : r - i = (r - (i + 1)) + 1 := by omega
        rw [this]
        simpa using h3
      · intro j hj1 hj2
        rcases Nat.eq_or_lt_of_le hj1 with rfl | hlt
        · have hfalse : cutLineCond sp lp i l = false := by
            cases hcl : cutLineCond sp lp i l
            · rfl
            · exact absurd hcl hcond
          simpa [Nat.sub_self] using hfalse
        · have : j - i = (j - (i + 1)) + 1 := by omega
          rw [this]
          simpa using h4 j (by omega) hj2

theorem findCutIndexGo_none {sp lp : List Char} :
    ∀ {ls : List (List Char)} {i : Nat}, findCutIndexGo sp lp i ls = none →
      ∀ j, i ≤ j → j - i < ls.length → cutLineCond sp lp j (ls.getD (j - i) []) = false := by
  intro ls
  induction ls with
  | nil =>
    intro i _ j _ hj
    simp at hj
  | cons l ls ih =>
    intro i h j hj1 hj2
    unfold findCutIndexGo at h
    split at h
    next => exact Option.noConfusion h
    next hcond =>
      rcases Nat.eq_or_lt_of_le hj1 with rfl | hlt
      · have hfalse : cutLineCond sp lp i l = false := by
          cases hcl : cutLineCond sp lp i l
          · rfl
          · exact absurd hcl hcond
        simpa [Nat.sub_self] using hfalse
      · have hrec : j - i = (j - (i + 1)) + 1 := by omega
        rw [hrec]
        have := ih h j (by omega) (by simp only [List.length_cons] at hj2; omega)
        simpa using this

/-- C7 (amended): `trimUntilSuffix` right-trims the insertion; with no
non-blank suffix line the right-trimmed insertion is returned unchanged;
otherwise the insertion is cut to the lines strictly before the first
line whose non-empty leading window (leading whitespace plus the next 15
characters, the first line extended with the prefix content after its
last newline) is a prefix of the window of the suffix line; in particular the
insertion "pnpm-store\n  key: {{...}}-pnpm-X" against the suffix line
"  key: {{...}}-pnpm-store-{{...}}" (whose 15-character windows agree) is
truncated to "pnpm-store". -/
theorem trimUntilSuffix_spec :
    (∀ ins pfx sfx, (firstNonEmptyLine sfx).length = 0 →
      trimUntilSuffix ins pfx sfx = jsTrimEnd ins) ∧
    (∀ ins pfx sfx, (firstNonEmptyLine sfx).length ≠ 0 →
      ∃ k, k ≤ ((jsTrimEnd ins).splitOn newline).length ∧
        trimUntilSuffix ins pfx sfx =
          [newline].intercalate (((jsTrimEnd ins).splitOn newline).take k) ∧
        (∀ j, j < k →
          cutLineCond (getFirstNCharsPreservingLeadingSpaces (firstNonEmptyLine sfx) matchChars)
            (lastLineOfPrefix pfx) j (((jsTrimEnd ins).splitOn newline).getD j []) = false) ∧
        (k < ((jsTrimEnd ins).splitOn newline).length →
          cutLineCond (getFirstNCharsPreservingLeadingSpaces (firstNonEmptyLine sfx) matchChars)
            (lastLineOfPrefix pfx) k (((jsTrimEnd ins).splitOn newline).getD k []) = true)) ∧
    trimUntilSuffix (("pnpm-store\n  key: \x7b\x7b...\x7d\x7d-pnpm-X").toList) []
      (("  key: \x7b\x7b...\x7d\x7d-pnpm-store-\x7b\x7b...\x7d\x7d").toList) =
      ("pnpm-store").toList := by
  refine ⟨?_, ?_, ?_⟩
  · intro ins pfx sfx h
    rw [trimUntilSuffix, if_pos h]
  · intro ins pfx sfx h
    rw [trimUntilSuffix, if_neg h]
    cases hf : findCutIndexGo
        (getFirstNCharsPreservingLeadingSpaces (firstNonEmptyLine sfx) matchChars)
        (lastLineOfPrefix pfx) 0 ((jsTrimEnd ins).splitOn newline) with
    | none =>
      refine ⟨((jsTrimEnd ins).splitOn newline).length, Nat.le_refl _, rfl, ?_, ?_⟩
      · intro j hj
        have := findCutIndexGo_none hf j (Nat.zero_le _) (by simpa using hj)
        simpa using this
      · intro hk
        omega
    | some r =>
      obtain ⟨_, h2, h3, h4⟩ := findCutIndexGo_some hf
      refine ⟨r, by simpa using Nat.le_of_lt h2, rfl, ?_, ?_⟩
      · intro j hj
        have := h4 j (Nat.zero_le _) hj
        simpa using this
      · intro _
        simpa using h3
  · decide

theorem trimUntilSuffix_spec_witness :
    (firstNonEmptyLine (("  \n \t").toList)).length = 0 ∧
    trimUntilSuffix (("abc ").toList) (("p").toList) (("  \n \t").toList) =
      jsTrimEnd (("abc ").toList) :=
  ⟨by decide,
    trimUntilSuffix_spec.1 (("abc ").toList) (("p").toList) (("  \n \t").toList) (by decide)⟩

/-- C7 counterexample: on the insertion "pnpm-store\n  key: X-Y-Z" and a
suffix whose first non-blank line is "  key: {{...}}-pnpm-store-{{...}}",
no 15-character window of an insertion line is a prefix of the suffix window
("  key: X-Y-Z" differs from "  key: {{...}}-" at the eighth character),
so nothing is cut and the result keeps both lines instead of being
truncated to "pnpm-store". -/
theorem trimUntilSuffix_claim_example_false :
    trimUntilSuffix (("pnpm-store\n  key: X-Y-Z").toList) []
        (("  key: \x7b\x7b...\x7d\x7d-pnpm-store-\x7b\x7b...\x7d\x7d").toList) ≠
      ("pnpm-store").toList := by
  decide

theorem filter_orderedInsert (n : Nat) (a : List Char) :
    ∀ L, (List.orderedInsert moreLines a L).filter (fun c => lineCount c == n) =
      if lineCount a = n then a :: L.filter (fun c => lineCount c == n)
      else L.filter (fun c => lineCount c == n) := by
  intro L
  induction L with
  | nil =>
    by_cases h : lineCount a = n <;> simp [List.orderedInsert, List.filter_cons, h]
  | cons b L ih =>
    by_cases hr : moreLines a b
    · by_cases h : lineCount a = n <;>
        simp [List.orderedInsert, if_pos hr, List.filter_cons, h]
    · by_cases h : lineCount a = n
      · have hb : (lineCount b == n) = false := by
          simp only [moreLines] at hr
          simp only [beq_eq_false_iff_ne]
          omega
        simp [List.orderedInsert, if_neg hr, List.filter_cons, hb, ih, h]
      · simp [List.orderedInsert, if_neg hr, List.filter_cons, ih, h]

theorem filter_insertionSort (n : Nat) :
    ∀ cs : List (List Char),
      (List.insertionSort moreLines cs).filter (fun c => lineCount c == n) =
        cs.filter (fun c => lineCount c == n) := by
  intro cs
  induction cs with
  | nil => rfl
  | cons a L ih =>
    simp only [List.insertionSort]
    rw [filter_orderedInsert]
    by_cases h : lineCount a = n
    · simp [h, ih, List.filter_cons]
    · simp [h, ih, List.filter_cons]

/-- C9: the ranked candidate list is sorted by descending number of
lines, is a permutation of the surviving candidates, and candidates with
an equal number of lines keep their original request order (the
subsequence with any fixed line count is unchanged); in particular three
distinct candidates of 1, 5 and 1 lines are returned as
[5-line, first 1-line, second 1-line]. -/
theorem rankCompletions_spec :
    (∀ cs, List.Sorted moreLines (rankCompletions cs)) ∧
    (∀ cs, List.Perm (rankCompletions cs) cs) ∧
    (∀ cs n, (rankCompletions cs).filter (fun c => lineCount c == n) =
      cs.filter (fun c => lineCount c == n)) ∧
    rankCompletions
        [("return a").toList, ("v\nw\nx\ny\nz").toList, ("return b").toList] =
      [("v\nw\nx\ny\nz").toList, ("return a").toList, ("return b").toList] := by
  refine ⟨?_, ?_, ?_, ?_⟩
  · intro cs
    exact List.sorted_insertionSort moreLines cs
  · intro cs
    exact List.perm_insertionSort moreLines cs
  · intro cs n
    exact filter_insertionSort n cs
  · decide

/-- C1 counterexample: with the surrounding context not supplying the
closer of the block being completed, the engine retains a lone level-0
closing bracket (closing-bracket retention, §4.2): the candidate is not
truncated strictly before that line, contradicting the claim, which
demands the result be the preceding lines alone. -/
theorem truncateLines_keeps_unsupplied_closer :
    truncateLines 2 4 false [("      foo()").toList, ("\x7d").toList] =
      [("      foo()").toList, ("\x7d").toList] ∧
    truncateLines 2 4 false [("      foo()").toList, ("\x7d").toList] ≠
      [("      foo()").toList] := by
  decide

/-- C1 (amended): with the cursor inside a block (positive start
indentation), a candidate line that is an else-style continuation at the
start indentation is not a truncation point -- the walk keeps it and
continues -- and the first non-blank, non-continuation candidate line
whose indentation drops to level 0 truncates the candidate strictly
before that line, except that a lone closing bracket whose closer the
surrounding context does not already supply is retained: it is included
and ends the candidate (closing-bracket retention). -/
theorem truncateLines_spec :
    (∀ tabSize start closerInContext (pre : List (List Char)) elseL post,
      (∀ l ∈ pre, isTerminatorLine tabSize start l = false) →
      isContinuationLine elseL = true →
      indentation tabSize elseL = start →
      truncateLines tabSize start closerInContext (pre ++ elseL :: post) =
        pre ++ elseL :: truncateLines tabSize start closerInContext post) ∧
    (∀ tabSize start closerInContext (pre : List (List Char)) dropL post,
      0 < start →
      (∀ l ∈ pre, isTerminatorLine tabSize start l = false) →
      isBlankLine dropL = false →
      isContinuationLine dropL = false →
      indentation tabSize dropL = 0 →
      (isLoneCloser dropL = false ∨ closerInContext = true) →
      truncateLines tabSize start closerInContext (pre ++ dropL :: post) = pre) ∧
    (∀ tabSize start (pre : List (List Char)) dropL post,
      0 < start →
      (∀ l ∈ pre, isTerminatorLine tabSize start l = false) →
      isBlankLine dropL = false →
      isContinuationLine dropL = false →
      indentation tabSize dropL = 0 →
      isLoneCloser dropL = true →
      truncateLines tabSize start false (pre ++ dropL :: post) = pre ++ [dropL]) := by
  refine ⟨?_, ?_, ?_⟩
  · intro tabSize start closerInContext pre elseL post hpre hcont _hind
    induction pre with
    | nil =>
      have hterm : isTerminatorLine tabSize start elseL = false := by
        simp [isTerminatorLine, hcont]
      simp [truncateLines, hterm]
    | cons p pre ih =>
      have hp : isTerminatorLine tabSize start p = false := hpre p (by simp)
      simp only [List.cons_append, truncateLines, hp, Bool.false_eq_true, if_false]
      exact congrArg (List.cons p) (ih (fun l hl => hpre l (by simp [hl])))
  · intro tabSize start closerInContext pre dropL post _hst hpre hblank hcont hind hret
    induction pre with
    | nil =>
      have hterm : isTerminatorLine tabSize start dropL = true := by
        simp [isTerminatorLine, hblank, hcont, hind]
      have hcondF : (isLoneCloser dropL && !closerInContext) = false := by
        rcases hret with h | h <;> simp [h]
      simp [truncateLines, hterm, hcondF]
    | cons p pre ih =>
      have hp : isTerminatorLine tabSize start p = false := hpre p (by simp)
      simp only [List.cons_append, truncateLines, hp, Bool.false_eq_true, if_false]
      exact congrArg (List.cons p) (ih (fun l hl => hpre l (by simp [hl])))
  · intro tabSize start pre dropL post _hst hpre hblank hcont hind hlone
    induction pre with
    | nil =>
      have hterm : isTerminatorLine tabSize start dropL = true := by
        simp [isTerminatorLine, hblank, hcont, hind]
      simp [truncateLines, hterm, hlone]
    | cons p pre ih =>
      have hp : isTerminatorLine tabSize start p = false := hpre p (by simp)
      simp only [List.cons_append, truncateLines, hp, Bool.false_eq_true, if_false]
      exact congrArg (List.cons p) (ih (fun l hl => hpre l (by simp [hl])))

theorem truncateLines_spec_witness :
    truncateLines 2 4 true ([("      foo()").toList] ++
        ("    \x7d else \x7b").toList :: [("      bar()").toList]) =
      [("      foo()").toList] ++
        ("    \x7d else \x7b").toList :: truncateLines 2 4 true [("      bar()").toList] ∧
    truncateLines 2 4 true ([("      foo()").toList] ++
        ("\x7d").toList :: [("unrelated()").toList]) = [("      foo()").toList] ∧
    truncateLines 2 4 false ([("      foo()").toList] ++
        ("\x7d").toList :: [("unrelated()").toList]) =
      [("      foo()").toList] ++ [("\x7d").toList] :=
  ⟨truncateLines_spec.1 2 4 true [("      foo()").toList] (("    \x7d else \x7b").toList)
      [("      bar()").toList] (by decide) (by decide) (by decide),
    truncateLines_spec.2.1 2 4 true [("      foo()").toList] (("\x7d").toList)
      [("unrelated()").toList] (by decide) (by decide) (by decide) (by decide) (by decide)
      (Or.inr rfl),
    truncateLines_spec.2.2 2 4 [("      foo()").toList] (("\x7d").toList)
      [("unrelated()").toList] (by decide) (by decide) (by decide) (by decide) (by decide)
      (by decide)⟩

/-- C2: for a cache entry storing completion `C` under `(P, S)` and a
later trigger whose prefix is `P ++ t` with `t` a strict prefix of `C`
and whose suffix is still `S`, the pipeline returns the remainder of `C`
after `t` as its candidate with zero requests issued to the client --
for every client behaviour, including a request that never resolves. -/
theorem cache_synthesis_zero_requests (P S C t : List Char)
    (ht : t <+: C) (hlt : t.length < C.length) :
    ∀ client, pipelineStep [⟨P, S, C⟩] (P ++ t) S client = (some [C.drop t.length], 0) := by
  intro client
  have hdrop : (P ++ t).drop P.length = t := List.drop_left P t
  have hget : cacheGet [⟨P, S, C⟩] (P ++ t) S = some (C.drop t.length) := by
    unfold cacheGet
    rw [List.findSome?_cons]
    have h1 : P.isPrefixOf (P ++ t) = true := List.isPrefixOf_iff_prefix.mpr ⟨t, rfl⟩
    simp only [hdrop, h1, beq_self_eq_true, List.isPrefixOf_iff_prefix.mpr ht, hlt,
      decide_eq_true_eq, Bool.and_self, Bool.and_true, Bool.true_and, decide_True, if_true]
  simp [pipelineStep, hget]

theorem cache_synthesis_zero_requests_witness :
    (("log(").toList <+: ("log(1);").toList ∧
      (("log(").toList).length < (("log(1);").toList).length) ∧
    pipelineStep [⟨("console.").toList, ("\ns();").toList, ("log(1);").toList⟩]
        (("console.").toList ++ ("log(").toList) (("\ns();").toList) ClientBehavior.stalls =
      (some [(("log(1);").toList).drop 4], 0) :=
  ⟨⟨by decide, by decide⟩,
    cache_synthesis_zero_requests (("console.").toList) (("\ns();").toList)
      (("log(1);").toList) (("log(").toList) (by decide) (by decide) ClientBehavior.stalls⟩

/-- C3: a throwing branch contributes zero candidates while the other
branches still contribute theirs (removing the failed branch leaves the
aggregate unchanged); the entry point always returns `ok` (never
throws); and when every branch fails the entry point returns the empty
candidate list. -/
theorem provideInline_spec :
    (∀ xs ys, aggregateBranches (xs ++ BranchOutcome.err :: ys) =
      aggregateBranches (xs ++ ys)) ∧
    (∀ bs, ∃ cs, provideInlineCompletionItems bs = Except.ok cs) ∧
    (∀ bs, (∀ b ∈ bs, b = BranchOutcome.err) →
      provideInlineCompletionItems bs = Except.ok []) := by
  refine ⟨?_, ?_, ?_⟩
  · intro xs ys
    simp [aggregateBranches, List.filterMap_append]
  · intro bs
    exact ⟨_, rfl⟩
  · intro bs hall
    have hagg : aggregateBranches bs = [] := by
      induction bs with
      | nil => rfl
      | cons b bs ih =>
        have hb : b = BranchOutcome.err := hall b (by simp)
        subst hb
        simp only [aggregateBranches, List.filterMap_cons]
        exact ih (fun b hb => hall b (by simp [hb]))
    simp [provideInlineCompletionItems, hagg, rankCompletions]

theorem provideInline_spec_witness :
    provideInlineCompletionItems [BranchOutcome.err, BranchOutcome.err, BranchOutcome.err] =
      Except.ok [] :=
  provideInline_spec.2.2 [BranchOutcome.err, BranchOutcome.err, BranchOutcome.err] (by decide)

end Cody

